import Mathlib

/-
Verification of the in-memory record repository and batch partitioner in
`src/examples/example.py`.

Shallow embedding choices:
* The Python `datetime` timestamp is modelled as an `Int` (an abstract instant).
* Python exceptions are modelled with `Except PyError`; the only exception the
  modelled code can raise is `ValueError` (from `range` with a zero step and
  from `list.remove` on an absent element).
* Methods that mutate `self` return the updated repository explicitly; methods
  that only read return their result (and, in the `_call` forms, thread the
  repository state through unchanged, exactly as the method bodies do).
-/

set_option autoImplicit false

/-- The one Python exception kind reachable inside the modelled core:
`ValueError`, raised by `range(..., 0)` and by `list.remove` on a missing
element. -/
inductive PyError where
  | valueError
  deriving DecidableEq, Repr

/-- The `User` dataclass: `id`, `name`, `email`, `age`, `created_at`.
Dataclass equality is field-wise structural equality, hence `DecidableEq`. -/
structure User where
  id : Int
  name : String
  email : String
  age : Int
  created_at : Int
  deriving DecidableEq, Repr

/-- `is_adult`: `return self.age >= 18`. -/
def User.is_adult (u : User) : Bool :=
  decide (u.age ≥ 18)

/-- Construction of a `User` without an explicit `created_at` argument.
In the source the dataclass field default `created_at: datetime = datetime.now()`
is evaluated ONCE, when the class body executes; `loadTime` is that single
captured instant. The moment at which the constructor is later called does not
enter the constructed record at all. -/
def User.mkDefaultTimestamp (loadTime : Int) (id : Int) (name email : String)
    (age : Int) : User :=
  ⟨id, name, email, age, loadTime⟩

/-- `UserRepository`: a connection string (stored, never interpreted) and the
ordered list of users. -/
structure UserRepository where
  connection_string : String
  users : List User
  deriving DecidableEq, Repr

/-- `__init__`: stores the connection string and starts with an empty list. -/
def UserRepository.make (connection_string : String) : UserRepository :=
  ⟨connection_string, []⟩

/-- The `for user in self.users: if user.id == user_id: return user` loop of
`find_by_id`, returning `none` when the loop falls through. -/
def findFirstById (user_id : Int) : List User → Option User
  | [] => none
  | u :: rest => if u.id = user_id then some u else findFirstById user_id rest

/-- `find_by_id`: first user (in insertion order) whose `id` matches, else
`None`. -/
def UserRepository.find_by_id (repo : UserRepository) (user_id : Int) :
    Option User :=
  findFirstById user_id repo.users

/-- The generator `next((u for u in self.users if u.email == email), None)`:
first user whose `email` matches, else `None`. -/
def findFirstByEmail (email : String) : List User → Option User
  | [] => none
  | u :: rest => if u.email = email then some u else findFirstByEmail email rest

/-- `find_by_email`. -/
def UserRepository.find_by_email (repo : UserRepository) (email : String) :
    Option User :=
  findFirstByEmail email repo.users

/-- `save`: `if user not in self.users: self.users.append(user)`; always
`return user`. Membership uses dataclass structural equality. -/
def UserRepository.save (repo : UserRepository) (user : User) :
    User × UserRepository :=
  if user ∈ repo.users then (user, repo)
  else (user, ⟨repo.connection_string, repo.users ++ [user]⟩)

/-- Python `list.remove(x)`: removes the first element structurally equal to
`x`, raising `ValueError` when no element equals `x`. -/
def pyRemove (x : User) : List User → Except PyError (List User)
  | [] => Except.error PyError.valueError
  | y :: rest =>
    if y = x then Except.ok rest
    else (pyRemove x rest).map (fun l => y :: l)

/-- `delete`: `user = self.find_by_id(user_id)`; `if user:` (a dataclass
instance is always truthy, so this is an is-not-None test) then
`self.users.remove(user); return True` else `return False`. -/
def UserRepository.delete (repo : UserRepository) (user_id : Int) :
    Except PyError (Bool × UserRepository) :=
  match repo.find_by_id user_id with
  | some user =>
    match pyRemove user repo.users with
    | Except.ok l => Except.ok (true, ⟨repo.connection_string, l⟩)
    | Except.error e => Except.error e
  | none => Except.ok (false, repo)

/-- Method-call form of `find_by_id`: the body only reads `self.users`, so the
post-state is the pre-state. -/
def UserRepository.find_by_id_call (repo : UserRepository) (user_id : Int) :
    Option User × UserRepository :=
  (repo.find_by_id user_id, repo)

/-- Method-call form of `find_by_email`: the body only reads `self.users`. -/
def UserRepository.find_by_email_call (repo : UserRepository) (email : String) :
    Option User × UserRepository :=
  (repo.find_by_email email, repo)

/-- `process_batch` from the source: iterate `i` over
`range(0, len(items), batch_size)` and collect the slices
`items[i : i + batch_size]`. `range` raises `ValueError` on a zero step; for a
negative step it yields no index (the start `0` is not greater than the stop
`len(items) ≥ 0`), so the loop body never runs; for a positive step `s` it
yields exactly the indices `k * s` for `k < ⌈len(items) / s⌉`, and the slice
`items[i : i + s]` is `take s` of `drop i`. -/
def process_batch {α : Type} (items : List α) (batch_size : Int) :
    Except PyError (List (List α)) :=
  if batch_size = 0 then Except.error PyError.valueError
  else if batch_size < 0 then Except.ok []
  else
    let s := batch_size.toNat
    Except.ok ((List.range ((items.length + s - 1) / s)).map
      fun k => (items.drop (k * s)).take s)

/-- Calling `process_batch` without the `batch_size` argument: the declared
default is `10`. -/
def process_batch_default {α : Type} (items : List α) :
    Except PyError (List (List α)) :=
  process_batch items 10

/-! ## Lemmas about the first-match scan -/

theorem findFirstById_some {uid : Int} {l : List User} {u : User}
    (h : findFirstById uid l = some u) :
    u.id = uid ∧ ∃ l1 l2, l = l1 ++ u :: l2 ∧ ∀ v ∈ l1, v.id ≠ uid := by
  induction l with
  | nil => simp [findFirstById] at h
  | cons a rest ih =>
    rw [findFirstById] at h
    by_cases ha : a.id = uid
    · rw [if_pos ha] at h
      injection h with h
      subst h
      exact ⟨ha, [], rest, rfl, by simp⟩
    · rw [if_neg ha] at h
      obtain ⟨hu, l1, l2, heq, hl1⟩ := ih h
      refine ⟨hu, a :: l1, l2, by rw [heq, List.cons_append], ?_⟩
      intro v hv
      rcases List.mem_cons.mp hv with rfl | hv2
      · exact ha
      · exact hl1 v hv2

theorem findFirstById_none {uid : Int} {l : List User} :
    findFirstById uid l = none ↔ ∀ v ∈ l, v.id ≠ uid := by
  induction l with
  | nil => simp [findFirstById]
  | cons a rest ih =>
    rw [findFirstById]
    by_cases ha : a.id = uid
    · simp [ha]
    · simp [ha, ih]

theorem pyRemove_first {x : User} {l1 : List User} (l2 : List User)
    (h : ∀ v ∈ l1, v ≠ x) :
    pyRemove x (l1 ++ x :: l2) = Except.ok (l1 ++ l2) := by
  induction l1 with
  | nil => simp [pyRemove]
  | cons a t ih =>
    have ha : a ≠ x := h a (List.mem_cons_self a t)
    have ht : ∀ v ∈ t, v ≠ x := fun v hv => h v (List.mem_cons_of_mem a hv)
    simp [pyRemove, ha, ih ht, Except.map]

theorem delete_of_find_some {repo : UserRepository} {uid : Int} {u : User}
    (hu : repo.find_by_id uid = some u) :
    u.id = uid ∧ ∃ l1 l2, repo.users = l1 ++ u :: l2 ∧ (∀ v ∈ l1, v.id ≠ uid) ∧
      repo.delete uid = Except.ok (true, ⟨repo.connection_string, l1 ++ l2⟩) := by
  obtain ⟨hid, l1, l2, heq, hl1⟩ := findFirstById_some hu
  refine ⟨hid, l1, l2, heq, hl1, ?_⟩
  have hne : ∀ v ∈ l1, v ≠ u := by
    intro v hv hvu
    exact hl1 v hv (hvu ▸ hid)
  have hrw := pyRemove_first l2 hne
  simp only [UserRepository.delete, hu, heq, hrw]

theorem delete_of_find_none {repo : UserRepository} {uid : Int}
    (h : repo.find_by_id uid = none) :
    repo.delete uid = Except.ok (false, repo) := by
  simp only [UserRepository.delete, h]

/-! ## Claim theorems -/

/-- C8: `is_adult()` returns true iff `age >= 18`; boundary: age 18 yields
true and age 17 yields false. The function is pure and total. -/
theorem is_adult_spec (u : User) :
    (u.is_adult = true ↔ 18 ≤ u.age) ∧
    User.is_adult ⟨1, "A", "a", 18, 0⟩ = true ∧
    User.is_adult ⟨1, "A", "a", 17, 0⟩ = false := by
  refine ⟨?_, by decide, by decide⟩
  simp [User.is_adult, ge_iff_le]

theorem is_adult_spec_witness :
    User.is_adult ⟨5, "E", "e", 30, 0⟩ = true :=
  (is_adult_spec ⟨5, "E", "e", 30, 0⟩).1.mpr (by decide)

/-- C3, refuted on the code: every record built without an explicit timestamp
carries the single default value captured when the class body executed,
whatever the other construction data are — so two records constructed at
different moments still share an identical `created_at`. -/
theorem created_at_shared_default (loadTime : Int) (id1 id2 age1 age2 : Int)
    (n1 n2 e1 e2 : String) :
    (User.mkDefaultTimestamp loadTime id1 n1 e1 age1).created_at =
      (User.mkDefaultTimestamp loadTime id2 n2 e2 age2).created_at := rfl

/-- C10: the two lookup operations leave the collection (contents and order)
and the configuration string unchanged. -/
theorem find_calls_frame (repo : UserRepository) (uid : Int) (em : String) :
    (repo.find_by_id_call uid).2.users = repo.users ∧
    (repo.find_by_id_call uid).2.connection_string = repo.connection_string ∧
    (repo.find_by_email_call em).2.users = repo.users ∧
    (repo.find_by_email_call em).2.connection_string = repo.connection_string :=
  ⟨rfl, rfl, rfl, rfl⟩

/-- C1: `save` appends exactly when no structurally-equal record is present
(store unchanged otherwise), saving the same record twice leaves the length
unchanged, and `save` returns its input record. -/
theorem save_spec (repo : UserRepository) (u : User) :
    (u ∈ repo.users → (repo.save u).2 = repo) ∧
    (u ∉ repo.users → (repo.save u).2.users = repo.users ++ [u]) ∧
    ((repo.save u).2.save u).2.users.length = (repo.save u).2.users.length ∧
    (repo.save u).1 = u := by
  by_cases h : u ∈ repo.users
  · simp [UserRepository.save, h]
  · simp [UserRepository.save, h]

theorem save_spec_witness :
    (UserRepository.save ⟨"db", [⟨1, "A", "a", 20, 0⟩]⟩ ⟨1, "A", "a", 20, 0⟩).2 =
      ⟨"db", [⟨1, "A", "a", 20, 0⟩]⟩ :=
  (save_spec ⟨"db", [⟨1, "A", "a", 20, 0⟩]⟩ ⟨1, "A", "a", 20, 0⟩).1 (by decide)

/-- C9: for every negative batch size the partitioner terminates with no error
and returns the empty chunk sequence; only a zero batch size trips the range
step check. -/
theorem process_batch_neg (items : List Int) (b : Int) (hb : b < 0) :
    process_batch items b = Except.ok [] := by
  unfold process_batch
  rw [if_neg (by omega), if_pos hb]

theorem process_batch_neg_witness :
    process_batch ([1, 2] : List Int) (-3) = Except.ok [] :=
  process_batch_neg [1, 2] (-3) (by decide)

/-- C2 counterexample: at `batch_size = -1` the partitioner does not fail with
the invalid-argument error — it returns a result, the empty chunk list. -/
theorem partition_negative_counterexample :
    process_batch ([1] : List Int) (-1) = Except.ok [] ∧
    process_batch ([1] : List Int) (-1) ≠ Except.error PyError.valueError := by
  refine ⟨rfl, ?_⟩
  intro h
  rw [show process_batch ([1] : List Int) (-1) = Except.ok [] from rfl] at h
  exact Except.noConfusion h

/-- C2 amended: a zero batch size fails with the invalid-argument error (the
`ValueError` from the range step check) and returns no result, while a negative
batch size does not fail and yields the empty chunk sequence. -/
theorem partition_nonpositive_spec (items : List Int) (b : Int) (_hb : b ≤ 0) :
    (b = 0 → process_batch items b = Except.error PyError.valueError) ∧
    (b < 0 → process_batch items b = Except.ok []) := by
  constructor
  · intro h0
    unfold process_batch
    rw [if_pos h0]
  · intro hneg
    unfold process_batch
    rw [if_neg (by omega), if_pos hneg]

theorem partition_nonpositive_spec_witness :
    process_batch ([1, 2, 3] : List Int) 0 = Except.error PyError.valueError :=
  (partition_nonpositive_spec [1, 2, 3] 0 (by decide)).1 rfl

/-- C4: `find_by_id` scans in insertion order and returns the first record
whose id matches (everything before it has a different id), and returns `none`
exactly when no stored record has that id. -/
theorem find_by_id_spec (repo : UserRepository) (uid : Int) :
    (∀ u, repo.find_by_id uid = some u →
      u.id = uid ∧ ∃ l1 l2, repo.users = l1 ++ u :: l2 ∧ ∀ v ∈ l1, v.id ≠ uid) ∧
    (repo.find_by_id uid = none ↔ ∀ v ∈ repo.users, v.id ≠ uid) :=
  ⟨fun _ h => findFirstById_some h, findFirstById_none⟩

theorem find_by_id_spec_witness :
    UserRepository.find_by_id
      ⟨"db", [⟨1, "A", "a", 20, 0⟩, ⟨2, "B", "b", 30, 0⟩]⟩ 3 = none :=
  (find_by_id_spec ⟨"db", [⟨1, "A", "a", 20, 0⟩, ⟨2, "B", "b", 30, 0⟩]⟩ 3).2.mpr
    (by decide)

/-- C7: no repository operation raises: `delete` always returns a boolean
result, `save` always succeeds and returns its input, and both lookups return
an explicit optional value (absence is `none`, never an error). -/
theorem repo_ops_no_error (repo : UserRepository) (uid : Int) (em : String)
    (u : User) :
    (∃ p, repo.delete uid = Except.ok p) ∧
    (repo.save u).1 = u ∧
    (repo.find_by_id uid = none ∨ ∃ v, repo.find_by_id uid = some v) ∧
    (repo.find_by_email em = none ∨ ∃ v, repo.find_by_email em = some v) := by
  refine ⟨?_, ?_, ?_, ?_⟩
  · cases hfind : repo.find_by_id uid with
    | some v =>
      obtain ⟨_, l1, l2, _, _, hdel⟩ := delete_of_find_some hfind
      exact ⟨_, hdel⟩
    | none => exact ⟨_, delete_of_find_none hfind⟩
  · by_cases h : u ∈ repo.users <;> simp [UserRepository.save, h]
  · cases h : repo.find_by_id uid
    · exact Or.inl rfl
    · exact Or.inr ⟨_, rfl⟩
  · cases h : repo.find_by_email em
    · exact Or.inl rfl
    · exact Or.inr ⟨_, rfl⟩

/-- C5 counterexample: two distinct records share id 1, so `delete 1` returns
true and a second `delete 1` returns true again (not false), removing the
other record. -/
theorem delete_again_counterexample :
    UserRepository.delete
        ⟨"db", [⟨1, "A", "a", 20, 0⟩, ⟨1, "B", "b", 30, 0⟩]⟩ 1 =
      Except.ok (true, ⟨"db", [⟨1, "B", "b", 30, 0⟩]⟩) ∧
    UserRepository.delete ⟨"db", [⟨1, "B", "b", 30, 0⟩]⟩ 1 =
      Except.ok (true, ⟨"db", []⟩) :=
  ⟨rfl, rfl⟩

/-- C5 amended: `delete` removes exactly one record — the first
structurally-equal occurrence of the first id-match — and returns true when
some record with the id is present; it returns false and leaves the store
unchanged when none is; and provided at most one stored record carries the id,
a `delete` that returned true is followed by a `delete` returning false that
leaves the collection unchanged. -/
theorem delete_spec (repo : UserRepository) (uid : Int) :
    (∀ u, repo.find_by_id uid = some u →
      ∃ l1 l2, repo.users = l1 ++ u :: l2 ∧ (∀ v ∈ l1, v.id ≠ uid) ∧
        repo.delete uid = Except.ok (true, ⟨repo.connection_string, l1 ++ l2⟩)) ∧
    (repo.find_by_id uid = none → repo.delete uid = Except.ok (false, repo)) ∧
    (repo.users.countP (fun v => decide (v.id = uid)) ≤ 1 →
      ∀ r, repo.delete uid = Except.ok (true, r) →
        r.delete uid = Except.ok (false, r)) := by
  refine ⟨?_, ?_, ?_⟩
  · intro u h
    obtain ⟨_, l1, l2, heq, hl1, hdel⟩ := delete_of_find_some h
    exact ⟨l1, l2, heq, hl1, hdel⟩
  · exact delete_of_find_none
  · intro hcount r hdel
    cases hfind : repo.find_by_id uid with
    | none =>
      rw [delete_of_find_none hfind] at hdel
      simp at hdel
    | some u =>
      obtain ⟨hid, l1, l2, heq, hl1, hdel2⟩ := delete_of_find_some hfind
      rw [hdel2] at hdel
      injection hdel with hpair
      injection hpair with hbool hrepo
      subst hrepo
      rw [heq, List.countP_append, List.countP_cons] at hcount
      rw [hid] at hcount
      simp only [decide_eq_true_eq, eq_self_iff_true, if_true] at hcount
      have h0 : l2.countP (fun v => decide (v.id = uid)) = 0 := by omega
      have hl2 : ∀ v ∈ l2, v.id ≠ uid := by
        intro v hv
        have hc := List.countP_eq_zero.mp h0 v hv
        simpa using hc
      have hall : ∀ v ∈ l1 ++ l2, v.id ≠ uid := by
        intro v hv
        rcases List.mem_append.mp hv with hmem | hmem
        · exact hl1 v hmem
        · exact hl2 v hmem
      have hnone :
          UserRepository.find_by_id ⟨repo.connection_string, l1 ++ l2⟩ uid = none :=
        findFirstById_none.mpr hall
      exact delete_of_find_none hnone

theorem delete_spec_witness :
    UserRepository.delete ⟨"db", [⟨2, "B", "b", 30, 0⟩]⟩ 1 =
      Except.ok (false, ⟨"db", [⟨2, "B", "b", 30, 0⟩]⟩) :=
  (delete_spec ⟨"db", [⟨2, "B", "b", 30, 0⟩]⟩ 1).2.1 (by decide)

/-! ## The chunk list of `process_batch` for a positive batch size -/

/-- The chunk list produced by `process_batch` at a positive chunk size `s`:
one slice `items[k*s : k*s + s]` per loop index. -/
def pbChunks {α : Type} (s : Nat) (items : List α) : List (List α) :=
  (List.range ((items.length + s - 1) / s)).map fun k => (items.drop (k * s)).take s

theorem process_batch_pos {α : Type} (items : List α) {b : Int} (hb : 0 < b) :
    process_batch items b = Except.ok (pbChunks b.toNat items) := by
  unfold process_batch pbChunks
  rw [if_neg (by omega), if_neg (by omega)]

theorem pbChunks_nil {α : Type} (s : Nat) : pbChunks s ([] : List α) = [] := by
  unfold pbChunks
  have h : (List.length ([] : List α) + s - 1) / s = 0 := by
    rcases Nat.eq_zero_or_pos s with h0 | h0
    · simp [h0]
    · simp only [List.length_nil]
      exact Nat.div_eq_of_lt (by omega)
  rw [h]
  rfl

theorem pbChunks_cons {α : Type} {s : Nat} (hs : 0 < s) {l : List α}
    (hl : l ≠ []) :
    pbChunks s l = l.take s :: pbChunks s (l.drop s) := by
  have hlen : 0 < l.length := List.length_pos.mpr hl
  have hnum : (l.length + s - 1) / s = (l.length - 1) / s + 1 := by
    have he : l.length + s - 1 = l.length - 1 + s := by omega
    rw [he, Nat.add_div_right _ hs]
  have hnum2 : ((l.drop s).length + s - 1) / s = (l.length - 1) / s := by
    rw [List.length_drop]
    rcases le_or_lt l.length s with h | h
    · have h1 : l.length - s = 0 := by omega
      rw [h1]
      have h2 : (0 + s - 1) / s = 0 := Nat.div_eq_of_lt (by omega)
      have h3 : (l.length - 1) / s = 0 := Nat.div_eq_of_lt (by omega)
      rw [h2, h3]
    · have h1 : l.length - s + s - 1 = l.length - 1 := by omega
      rw [h1]
  unfold pbChunks
  rw [hnum2, hnum, List.range_succ_eq_map]
  simp only [List.map_cons, List.map_map, Nat.zero_mul, List.drop_zero]
  have hfun : ((fun k => (l.drop (k * s)).take s) ∘ Nat.succ)
      = fun k => ((l.drop s).drop (k * s)).take s := by
    funext k
    simp only [Function.comp_apply]
    rw [List.drop_drop, Nat.succ_mul, Nat.add_comm (k * s) s]
  rw [hfun]

theorem pbChunks_flatten {α : Type} (s : Nat) (hs : 0 < s) (l : List α) :
    (pbChunks s l).flatten = l := by
  by_cases hl : l = []
  · subst hl
    rw [pbChunks_nil]
    rfl
  · rw [pbChunks_cons hs hl, List.flatten_cons,
      pbChunks_flatten s hs (l.drop s)]
    exact List.take_append_drop s l
termination_by l.length
decreasing_by
  simp only [List.length_drop]
  have hpos : 0 < l.length := List.length_pos.mpr hl
  omega

theorem pbChunks_length {α : Type} (s : Nat) (l : List α) :
    (pbChunks s l).length = (l.length + s - 1) / s := by
  unfold pbChunks
  rw [List.length_map, List.length_range]

theorem pbChunks_length_mul {α : Type} (s : Nat) (hs : 0 < s) (l : List α) :
    l.length ≤ (pbChunks s l).length * s ∧
      (pbChunks s l).length * s < l.length + s := by
  rw [pbChunks_length]
  have h1 := Nat.div_mul_le_self (l.length + s - 1) s
  have h2 := Nat.lt_mul_div_succ (l.length + s - 1) hs
  rw [Nat.mul_succ, Nat.mul_comm s ((l.length + s - 1) / s)] at h2
  set m := (l.length + s - 1) / s * s with hm
  omega

theorem pbChunks_eq_nil_iff {α : Type} {s : Nat} (hs : 0 < s) {l : List α} :
    pbChunks s l = [] ↔ l = [] := by
  constructor
  · intro h
    by_contra hl
    rw [pbChunks_cons hs hl] at h
    exact List.cons_ne_nil _ _ h
  · intro h
    subst h
    exact pbChunks_nil s

theorem pbChunks_dropLast {α : Type} (s : Nat) (hs : 0 < s) (l : List α) :
    ∀ c ∈ (pbChunks s l).dropLast, c.length = s := by
  by_cases hl : l = []
  · subst hl
    rw [pbChunks_nil]
    intro c hc
    simp at hc
  · rw [pbChunks_cons hs hl]
    by_cases hd : l.drop s = []
    · rw [hd, pbChunks_nil]
      intro c hc
      simp at hc
    · intro c hc
      have hne : pbChunks s (l.drop s) ≠ [] := by
        rw [ne_eq, pbChunks_eq_nil_iff hs]
        exact hd
      rw [List.dropLast_cons_of_ne_nil hne] at hc
      rcases List.mem_cons.mp hc with rfl | hc2
      · have hslen : s < l.length := by
          by_contra hge
          push_neg at hge
          exact hd (List.drop_eq_nil_of_le hge)
        rw [List.length_take]
        omega
      · exact pbChunks_dropLast s hs (l.drop s) c hc2
termination_by l.length
decreasing_by
  simp only [List.length_drop]
  have hpos : 0 < l.length := List.length_pos.mpr hl
  omega

theorem pbChunks_getLast {α : Type} (s : Nat) (hs : 0 < s) (l : List α)
    (hl : l ≠ []) :
    ∃ c, (pbChunks s l).getLast? = some c ∧ 0 < c.length ∧ c.length ≤ s := by
  rw [pbChunks_cons hs hl]
  by_cases hd : l.drop s = []
  · rw [hd, pbChunks_nil]
    refine ⟨l.take s, rfl, ?_, ?_⟩
    · rw [List.length_take]
      have hpos : 0 < l.length := List.length_pos.mpr hl
      omega
    · rw [List.length_take]
      omega
  · obtain ⟨c, hc, h1, h2⟩ := pbChunks_getLast s hs (l.drop s) hd
    refine ⟨c, ?_, h1, h2⟩
    have hne : pbChunks s (l.drop s) ≠ [] := by
      rw [ne_eq, pbChunks_eq_nil_iff hs]
      exact hd
    obtain ⟨b, t2, ht⟩ := List.exists_cons_of_ne_nil hne
    rw [ht] at hc
    rw [ht, List.getLast?_cons_cons]
    exact hc
termination_by l.length
decreasing_by
  simp only [List.length_drop]
  have hpos : 0 < l.length := List.length_pos.mpr hl
  omega

/-- C6: for every positive batch size `s`, `process_batch` succeeds; the chunk
count is `⌈L / s⌉` (expressed by the Nat formula `(L + s - 1) / s` and by the
pair of bounds `L ≤ count * s < L + s`); the chunks concatenate back to the
input, so zero chunks occur exactly for empty input; every chunk except the
last has exactly `s` elements and the last has between 1 and `s`; and the
declared default batch size is 10. -/
theorem process_batch_spec (items : List Int) (b : Int) (hb : 0 < b) :
    ∃ B, process_batch items b = Except.ok B ∧
      B.length = (items.length + b.toNat - 1) / b.toNat ∧
      items.length ≤ B.length * b.toNat ∧
      B.length * b.toNat < items.length + b.toNat ∧
      B.flatten = items ∧
      (∀ c ∈ B.dropLast, c.length = b.toNat) ∧
      (items ≠ [] → ∃ c, B.getLast? = some c ∧
        0 < c.length ∧ c.length ≤ b.toNat) ∧
      (B = [] ↔ items = []) ∧
      process_batch_default items = process_batch items 10 := by
  have hs : 0 < b.toNat := by omega
  exact ⟨pbChunks b.toNat items, process_batch_pos items hb,
    pbChunks_length b.toNat items,
    (pbChunks_length_mul b.toNat hs items).1,
    (pbChunks_length_mul b.toNat hs items).2,
    pbChunks_flatten b.toNat hs items,
    pbChunks_dropLast b.toNat hs items,
    fun hne => pbChunks_getLast b.toNat hs items hne,
    pbChunks_eq_nil_iff hs,
    rfl⟩

theorem process_batch_spec_witness :
    ∃ B, process_batch ([1, 2, 3, 4, 5] : List Int) 2 = Except.ok B ∧
      B.length = (([1, 2, 3, 4, 5] : List Int).length + (2 : Int).toNat - 1) /
        (2 : Int).toNat ∧
      ([1, 2, 3, 4, 5] : List Int).length ≤ B.length * (2 : Int).toNat ∧
      B.length * (2 : Int).toNat <
        ([1, 2, 3, 4, 5] : List Int).length + (2 : Int).toNat ∧
      B.flatten = ([1, 2, 3, 4, 5] : List Int) ∧
      (∀ c ∈ B.dropLast, c.length = (2 : Int).toNat) ∧
      (([1, 2, 3, 4, 5] : List Int) ≠ [] → ∃ c, B.getLast? = some c ∧
        0 < c.length ∧ c.length ≤ (2 : Int).toNat) ∧
      (B = [] ↔ ([1, 2, 3, 4, 5] : List Int) = []) ∧
      process_batch_default ([1, 2, 3, 4, 5] : List Int) =
        process_batch ([1, 2, 3, 4, 5] : List Int) 10 :=
  process_batch_spec [1, 2, 3, 4, 5] 2 (by decide)
